import Mathlib

/-!
Verification of the projection algebra, bus arithmetic and interconnect
fabrics of the `verilog_ml_benchmark_generator` repository, as a shallow
embedding of `utils.py` and `module_classes.py`.

Loop-dimension names follow the source: URW, URN, UE, UB, UG.
-/

/-- The five loop-dimension (unrolling-factor) names of a projection. -/
inductive Axis : Type
  | URW | URN | UE | UB | UG
deriving DecidableEq, Repr

/-- A projection: the `value` field of each of the five factor records
(`projection[a]['value']` in the source).  Sub-axes are modelled separately
where a fabric uses them. -/
structure Proj where
  urw : Nat
  urn : Nat
  ue : Nat
  ub : Nat
  ug : Nat
deriving DecidableEq, Repr

/-- `projection[a]['value']`. -/
def Proj.val (p : Proj) : Axis → Nat
  | Axis.URW => p.urw
  | Axis.URN => p.urn
  | Axis.UE => p.ue
  | Axis.UB => p.ub
  | Axis.UG => p.ug

/-- `utils.get_var_product`: product of `projection[a]['value']` over `axes`. -/
def get_var_product (p : Proj) (axes : List Axis) : Nat :=
  axes.foldl (fun acc a => acc * p.val a) 1

/-- The fixed axis scan order of `utils.get_overall_idx`
(`for item in ['URW','URN','UE','UB','UG']`). -/
def axisOrder : List Axis := [Axis.URW, Axis.URN, Axis.UE, Axis.UB, Axis.UG]

/-- The `idxs` dictionary passed to `utils.get_overall_idx`: an optional
index for each axis (a key may be absent). -/
structure IdxMap where
  urw : Option Nat
  urn : Option Nat
  ue : Option Nat
  ub : Option Nat
  ug : Option Nat
deriving DecidableEq, Repr

/-- Dictionary lookup `idxs[a]`. -/
def IdxMap.get (m : IdxMap) : Axis → Option Nat
  | Axis.URW => m.urw
  | Axis.URN => m.urn
  | Axis.UE => m.ue
  | Axis.UB => m.ub
  | Axis.UG => m.ug

/-- The assertions of `utils.get_overall_idx`: every supplied index is
strictly below its axis value (`idxs[item] < projection[item]['value']`). -/
def idxs_ok (p : Proj) (m : IdxMap) : Bool :=
  axisOrder.all fun a =>
    match m.get a with
    | some i => decide (i < p.val a)
    | none => true

/-- `utils.get_overall_idx`: the loop keeps a running `(product, total)`
state over the fixed axis order; an axis present in `idxs` adds
`product * idxs[a]` to the total and multiplies the product by its value,
an absent axis leaves both unchanged. -/
def get_overall_idx (p : Proj) (m : IdxMap) : Nat :=
  (axisOrder.foldl
    (fun st a =>
      match m.get a with
      | some i => (st.1 * p.val a, st.2 + st.1 * i)
      | none => st)
    (1, 0)).2

/-- Datatypes of streams. -/
inductive Dtype : Type
  | W | I | O
deriving DecidableEq, Repr

/-- One record of a projection's `PRELOAD` list. -/
structure PreloadRec where
  dtype : Dtype
  bus_count : Nat
deriving DecidableEq, Repr

/-- A projection together with its `PRELOAD` list (an absent `PRELOAD` key
is the empty list, which the source treats identically). -/
structure ProjSpec where
  p : Proj
  preload : List PreloadRec
deriving DecidableEq, Repr

/-- The axis set whose values `utils.get_proj_stream_count` multiplies for
each datatype. -/
def streamAxes : Dtype → List Axis
  | Dtype.W => [Axis.URW, Axis.URN, Axis.UE, Axis.UG]
  | Dtype.I => [Axis.URN, Axis.UB, Axis.UG]
  | Dtype.O => [Axis.UE, Axis.UB, Axis.UG]

/-- `utils.get_proj_stream_count` for a single datatype: start from the
axis product, then scan the `PRELOAD` list, each record of the right
datatype overwriting the count with its `bus_count` (so the last such
record wins). -/
def get_proj_stream_count (ps : ProjSpec) (dt : Dtype) : Nat :=
  ps.preload.foldl
    (fun acc r => if r.dtype = dt then r.bus_count else acc)
    (get_var_product ps.p (streamAxes dt))

/-- The last `PRELOAD` record naming datatype `dt`, if any. -/
def lastPreloadFor (ps : ProjSpec) (dt : Dtype) : Option PreloadRec :=
  ps.preload.reverse.find? fun r => decide (r.dtype = dt)

/-- The claimed encoding of C3, written from the spec sentence: canonical
mixed-radix with fixed radix order URW (innermost), URN, UB, UE, UG
(outermost), a missing axis contributing index 0 (but still its radix
factor). -/
def canonical_overall_idx_claimed (p : Proj) (m : IdxMap) : Nat :=
  m.urw.getD 0 +
    p.urw * (m.urn.getD 0 +
      p.urn * (m.ub.getD 0 +
        p.ub * (m.ue.getD 0 +
          p.ue * m.ug.getD 0)))

/-- Radix contributed by an axis in the closed form of `get_overall_idx`:
its value when the axis is supplied, and 1 (skipped) when it is absent. -/
def presentRadix (v : Nat) (o : Option Nat) : Nat :=
  if o.isSome then v else 1

/-- C2: `get_proj_stream_count` returns the `bus_count` of the (last)
`PRELOAD` record naming the datatype when one exists, and otherwise the
product of the axis values over `streamAxes dt` — that is, over
{URW,URN,UE,UG} for W, {URN,UB,UG} for I and {UE,UB,UG} for O. -/
theorem get_proj_stream_count_preload (ps : ProjSpec) (dt : Dtype) :
    get_proj_stream_count ps dt =
      match lastPreloadFor ps dt with
      | some r => r.bus_count
      | none => get_var_product ps.p (streamAxes dt) := by
  obtain ⟨p, l⟩ := ps
  induction l using List.reverseRecOn with
  | nil => simp [get_proj_stream_count, lastPreloadFor]
  | append_singleton l r ih =>
    simp only [get_proj_stream_count, lastPreloadFor, List.reverse_append,
      List.reverse_cons, List.reverse_nil, List.nil_append, List.singleton_append,
      List.find?, List.foldl_append, List.foldl_cons, List.foldl_nil] at *
    by_cases h : r.dtype = dt
    · simp [h]
    · simp [h, ih]

/-- A concrete projection with every axis value 2. -/
def projAllTwo : Proj := ⟨2, 2, 2, 2, 2⟩

/-- A concrete `idxs` dictionary supplying only UE := 0 and UB := 1. -/
def idxsUbUe : IdxMap := ⟨none, none, some 0, some 1, none⟩

/-- C3 (counterexample): on a projection with all axis values 2 and
`idxs = {UE: 0, UB: 1}` (both indices in range), `get_overall_idx`
returns 2, while the claimed canonical mixed-radix encoding (radix order
URW, URN, UB, UE, UG with a missing axis contributing index 0) gives 4:
the source scans UE before UB and skips the radix factors of absent
axes entirely. -/
theorem get_overall_idx_counterexample :
    idxs_ok projAllTwo idxsUbUe = true ∧
    get_overall_idx projAllTwo idxsUbUe = 2 ∧
    canonical_overall_idx_claimed projAllTwo idxsUbUe = 4 ∧
    get_overall_idx projAllTwo idxsUbUe ≠
      canonical_overall_idx_claimed projAllTwo idxsUbUe := by
  decide

/-- C3 (amended): `get_overall_idx` is the mixed-radix encoding in the
fixed scan order URW (innermost), URN, UE, UB, UG (outermost), where an
axis missing from `idxs` contributes digit 0 and radix factor 1 — it is
skipped, leaving no gap in the encoding — and every supplied index is
strictly below its axis value. -/
theorem get_overall_idx_closed_form (p : Proj) (m : IdxMap)
    (h : idxs_ok p m = true) :
    get_overall_idx p m =
      m.urw.getD 0 + presentRadix p.urw m.urw *
        (m.urn.getD 0 + presentRadix p.urn m.urn *
          (m.ue.getD 0 + presentRadix p.ue m.ue *
            (m.ub.getD 0 + presentRadix p.ub m.ub * m.ug.getD 0))) := by
  obtain ⟨a, b, c, d, e⟩ := m
  cases a <;> cases b <;> cases c <;> cases d <;> cases e <;>
    simp [get_overall_idx, axisOrder, IdxMap.get, presentRadix, Proj.val] <;>
    ring

/-- Witness for C3 (amended) at the concrete projection and index map. -/
theorem get_overall_idx_closed_form_witness :
    idxs_ok projAllTwo idxsUbUe = true ∧
    get_overall_idx projAllTwo idxsUbUe =
      idxsUbUe.urw.getD 0 + presentRadix projAllTwo.urw idxsUbUe.urw *
        (idxsUbUe.urn.getD 0 + presentRadix projAllTwo.urn idxsUbUe.urn *
          (idxsUbUe.ue.getD 0 + presentRadix projAllTwo.ue idxsUbUe.ue *
            (idxsUbUe.ub.getD 0 + presentRadix projAllTwo.ub idxsUbUe.ub *
              idxsUbUe.ug.getD 0))) :=
  ⟨by decide, get_overall_idx_closed_form projAllTwo idxsUbUe (by decide)⟩

/-- Port direction of a hardware block spec port. -/
inductive Dir : Type
  | inp | outp
deriving DecidableEq, Repr

/-- Port type of a hardware block spec port (only the kinds the verified
functions inspect are distinguished). -/
inductive PortType : Type
  | DATAOUT | DATAIN | ADDRESS | WEN | other
deriving DecidableEq, Repr

/-- One port record of a hardware block spec. -/
structure Port where
  width : Nat
  ptype : PortType
  dir : Dir
deriving DecidableEq, Repr

/-- `utils.get_sum_datatype_width`: sum of the widths of the ports whose
type is `t` and whose direction is in `dirs` (both directions by default
at every call site verified here). -/
def get_sum_datatype_width (hw : List Port) (t : PortType) (dirs : List Dir) : Nat :=
  (hw.map fun port => if port.ptype = t ∧ port.dir ∈ dirs then port.width else 0).sum

/-- Total DATAOUT width of a buffer spec (both directions, as in the
default-argument call `get_sum_datatype_width(buffer_spec, 'DATAOUT')`). -/
def dataout_width (buf : List Port) : Nat :=
  get_sum_datatype_width buf PortType.DATAOUT [Dir.inp, Dir.outp]

/-- Failure kinds of `utils.get_num_buffers_reqd` (its two assertions). -/
inductive BufErr : Type
  | zeroWidth
  | insufficientWidth
deriving DecidableEq, Repr

/-- Streams fitting in one buffer: `⌊min(data_out_width, max_bus_width or
∞) / stream_width⌋`. -/
def streams_per_buffer (buf : List Port) (stream_width : Nat)
    (max_bus_width : Option Nat) : Nat :=
  min (dataout_width buf) (max_bus_width.getD (dataout_width buf)) / stream_width

/-- `utils.get_num_buffers_reqd`.  The core follows the source: assert a
non-zero DATAOUT width, assert a non-zero streams-per-buffer count, and
return `⌈stream_count / streams_per_buffer⌉`.
Modelled from the spec: the optional `max_bus_width` argument, which caps
the usable buffer width via `min(data_out_width, max_bus_width)`; the
copy of `utils.py` at hand lacks the parameter although
`Datapath.construct` passes it for the input-buffer count. -/
def get_num_buffers_reqd (buf : List Port) (stream_count stream_width : Nat)
    (max_bus_width : Option Nat) : Except BufErr Nat :=
  let spb := streams_per_buffer buf stream_width max_bus_width
  if dataout_width buf = 0 then Except.error BufErr.zeroWidth
  else if spb = 0 then Except.error BufErr.insufficientWidth
  else Except.ok ((stream_count + spb - 1) / spb)

/-- C8: `get_num_buffers_reqd` fails exactly when `streams_per_buffer`
is 0 (the zero-DATAOUT-width assertion fires only in that case too), and
otherwise returns `⌈stream_count / streams_per_buffer⌉`, with the optional
`max_bus_width` capping the usable width through `min`. -/
theorem get_num_buffers_reqd_spec (buf : List Port)
    (sc sw : Nat) (mbw : Option Nat) :
    ((∃ e, get_num_buffers_reqd buf sc sw mbw = Except.error e) ↔
      streams_per_buffer buf sw mbw = 0) ∧
    (0 < streams_per_buffer buf sw mbw →
      get_num_buffers_reqd buf sc sw mbw =
        Except.ok ((sc + streams_per_buffer buf sw mbw - 1) /
          streams_per_buffer buf sw mbw)) := by
  constructor
  · constructor
    · rintro ⟨e, he⟩
      by_contra hspb
      simp only [get_num_buffers_reqd] at he
      have hdw : dataout_width buf ≠ 0 := by
        intro h0
        apply hspb
        simp [streams_per_buffer, h0]
      rw [if_neg hdw, if_neg hspb] at he
      exact Except.noConfusion he
    · intro hspb
      simp only [get_num_buffers_reqd]
      by_cases hdw : dataout_width buf = 0
      · rw [if_pos hdw]; exact ⟨BufErr.zeroWidth, rfl⟩
      · rw [if_neg hdw, if_pos hspb]; exact ⟨BufErr.insufficientWidth, rfl⟩
  · intro hspb
    have hspb' : streams_per_buffer buf sw mbw ≠ 0 := Nat.pos_iff_ne_zero.mp hspb
    have hdw : dataout_width buf ≠ 0 := by
      intro h0
      apply hspb'
      simp [streams_per_buffer, h0]
    simp only [get_num_buffers_reqd]
    rw [if_neg hdw, if_neg hspb']

/-- A concrete one-port buffer spec: an 8-bit DATAOUT output. -/
def bufEight : List Port := [⟨8, PortType.DATAOUT, Dir.outp⟩]

/-- Witness for C8: 5 streams of width 3 on an 8-bit buffer give
`streams_per_buffer = 2` and `⌈5/2⌉ = 3` buffers. -/
theorem get_num_buffers_reqd_spec_witness :
    streams_per_buffer bufEight 3 none = 2 ∧
    get_num_buffers_reqd bufEight 5 3 none = Except.ok 3 :=
  ⟨by decide, by
    have h := (get_num_buffers_reqd_spec bufEight 5 3 none).2 (by decide)
    simpa using h⟩

/-- Little-endian packing of lane values at stride `in_width`: lane `k` of
`vals` occupies bits `[k*in_width, (k+1)*in_width)` of the result, each
lane truncated to `in_width` bits as the `connect` of bit ranges does. -/
def packLanes (in_width : Nat) (vals : List Nat) : Nat :=
  match vals with
  | [] => 0
  | v :: rest => v % 2 ^ in_width + 2 ^ in_width * packLanes in_width rest

/-- The lane values feeding output bus `o` of `MergeBusses.construct`:
input lane `inp` is wired to bus `⌊inp/ins_per_out⌋` at slice
`inp % ins_per_out` when `inp < num_ins_used = min(ins_per_out*num_outs,
num_ins)`; a slice with no wired lane reads 0 (undriven). -/
def mergeLaneVals (num_ins num_outs ins_per_out : Nat) (ins : List Nat)
    (o : Nat) : List Nat :=
  (List.range ins_per_out).map fun k =>
    if o * ins_per_out + k < min (ins_per_out * num_outs) num_ins then
      ins.getD (o * ins_per_out + k) 0
    else 0

/-- Value read on output bus `o` of `MergeBusses.construct`: buses with
`i > ⌊num_ins_used / ins_per_out⌋` are tied to 0; every other bus packs
its wired lanes at stride `in_width` (bits `[ins_per_out*in_width,
out_width)` are zero-tied by the source and unwired bits read 0). -/
def MergeBusses_output (in_width num_ins out_width num_outs ins_per_out : Nat)
    (ins : List Nat) (o : Nat) : Nat :=
  if min (ins_per_out * num_outs) num_ins / ins_per_out < o then 0
  else packLanes in_width (mergeLaneVals num_ins num_outs ins_per_out ins o)

/-- `packLanes` of `n` lanes fits in `n * in_width` bits. -/
theorem packLanes_lt (in_width : Nat) (vals : List Nat) :
    packLanes in_width vals < 2 ^ (in_width * vals.length) := by
  induction vals with
  | nil => simp [packLanes]
  | cons v rest ih =>
    simp only [packLanes, List.length_cons]
    have hmod : v % 2 ^ in_width < 2 ^ in_width :=
      Nat.mod_lt _ (Nat.pos_pow_of_pos _ (by norm_num))
    calc v % 2 ^ in_width + 2 ^ in_width * packLanes in_width rest
        < 2 ^ in_width + 2 ^ in_width * packLanes in_width rest := by omega
      _ = 2 ^ in_width * (packLanes in_width rest + 1) := by ring
      _ ≤ 2 ^ in_width * 2 ^ (in_width * rest.length) :=
          Nat.mul_le_mul_left _ (Nat.succ_le_of_lt ih)
      _ = 2 ^ (in_width * (rest.length + 1)) := by
          rw [← pow_add]; ring_nf

/-- C6: with `ins_per_out ≥ 1` and `ins_per_out * in_width ≤ out_width`,
(1) the outputs of `MergeBusses.construct` depend only on the first
`min(ins_per_out * num_outs, num_ins)` input lanes, (2) every output bus
value fits in `ins_per_out * in_width` bits, so the high bits
`[ins_per_out*in_width, out_width)` of every bus are zero, and (3) every
bus with index above `⌊num_ins_used / ins_per_out⌋` is constantly zero. -/
theorem MergeBusses_invariants (in_width num_ins out_width num_outs
    ins_per_out : Nat) (hipo : 1 ≤ ins_per_out)
    (hfit : ins_per_out * in_width ≤ out_width) :
    (∀ ins ins' : List Nat,
      (∀ j, j < min (ins_per_out * num_outs) num_ins →
        ins.getD j 0 = ins'.getD j 0) →
      ∀ o, MergeBusses_output in_width num_ins out_width num_outs ins_per_out
          ins o =
        MergeBusses_output in_width num_ins out_width num_outs ins_per_out
          ins' o) ∧
    (∀ (ins : List Nat) (o : Nat),
      MergeBusses_output in_width num_ins out_width num_outs ins_per_out ins o
        < 2 ^ (ins_per_out * in_width)) ∧
    (∀ (ins : List Nat) (o : Nat),
      min (ins_per_out * num_outs) num_ins / ins_per_out < o →
      MergeBusses_output in_width num_ins out_width num_outs ins_per_out ins o
        = 0) := by
  refine ⟨?_, ?_, ?_⟩
  · intro ins ins' hagree o
    simp only [MergeBusses_output]
    by_cases ho : min (ins_per_out * num_outs) num_ins / ins_per_out < o
    · rw [if_pos ho, if_pos ho]
    · rw [if_neg ho, if_neg ho]
      congr 1
      simp only [mergeLaneVals]
      apply List.map_congr_left
      intro k hk
      by_cases hwired :
          o * ins_per_out + k < min (ins_per_out * num_outs) num_ins
      · rw [if_pos hwired, if_pos hwired, hagree _ hwired]
      · rw [if_neg hwired, if_neg hwired]
  · intro ins o
    simp only [MergeBusses_output]
    by_cases ho : min (ins_per_out * num_outs) num_ins / ins_per_out < o
    · rw [if_pos ho]
      exact Nat.pos_pow_of_pos _ (by norm_num)
    · rw [if_neg ho]
      have h := packLanes_lt in_width
        (mergeLaneVals num_ins num_outs ins_per_out ins o)
      have hlen : (mergeLaneVals num_ins num_outs ins_per_out ins o).length
          = ins_per_out := by
        simp [mergeLaneVals]
      rw [hlen, Nat.mul_comm in_width ins_per_out] at h
      exact h
  · intro ins o ho
    simp [MergeBusses_output, ho]

/-- Witness for C6 at the documented scenario `(3, 8, 23, 4, 6)` with
inputs `[0..7]`: outputs are `[181896, 62, 0, 0]`, the last obtained by
applying the invariants theorem. -/
theorem MergeBusses_invariants_witness :
    MergeBusses_output 3 8 23 4 6 [0, 1, 2, 3, 4, 5, 6, 7] 0 = 181896 ∧
    MergeBusses_output 3 8 23 4 6 [0, 1, 2, 3, 4, 5, 6, 7] 1 = 62 ∧
    MergeBusses_output 3 8 23 4 6 [0, 1, 2, 3, 4, 5, 6, 7] 2 = 0 ∧
    MergeBusses_output 3 8 23 4 6 [0, 1, 2, 3, 4, 5, 6, 7] 3 = 0 :=
  ⟨by decide, by decide, by decide,
    (MergeBusses_invariants 3 8 23 4 6 (by decide) (by decide)).2.2
      [0, 1, 2, 3, 4, 5, 6, 7] 3 (by decide)⟩

/-- Inner projection data used by the weight fabric's dilation handling:
the five axis values plus the optional `x` sub-axis of URW
(`inner_projection.get('URW').get('x', 1)` defaults to 1). -/
structure ProjSub where
  p : Proj
  urw_x : Option Nat
deriving DecidableEq, Repr

/-- `inner_projection['URW'].get('x', 1)`. -/
def ProjSub.urwx (ip : ProjSub) : Nat := ip.urw_x.getD 1

/-- `num_weight_ins = get_var_product(inner_projection, ['UG','UE','URN'])`. -/
def num_weight_ins (ip : ProjSub) : Nat :=
  get_var_product ip.p [Axis.UG, Axis.UE, Axis.URN]

/-- The weight stream index of a position: `get_overall_idx` over
{URW, URN, UE, UG} only (UB excluded, weight-stationary sharing). -/
def wStreamIdx (p : Proj) (urw urn ue ug : Nat) : Nat :=
  get_overall_idx p ⟨some urw, some urn, some ue, none, some ug⟩

/-- The MLB instance index of a position: `get_overall_idx` over all five
axes. -/
def wOutIdx (p : Proj) (urw urn ue ub ug : Nat) : Nat :=
  get_overall_idx p ⟨some urw, some urn, some ue, some ub, some ug⟩

/-- Closed form of the weight stream index. -/
theorem wStreamIdx_eq (p : Proj) (urw urn ue ug : Nat) :
    wStreamIdx p urw urn ue ug = urw + p.urw * (urn + p.urn * (ue + p.ue * ug)) := by
  simp [wStreamIdx, get_overall_idx, axisOrder, IdxMap.get, Proj.val]
  ring

/-- Closed form of the MLB instance index. -/
theorem wOutIdx_eq (p : Proj) (urw urn ue ub ug : Nat) :
    wOutIdx p urw urn ue ub ug =
      urw + p.urw * (urn + p.urn * (ue + p.ue * (ub + p.ub * ug))) := by
  simp [wOutIdx, get_overall_idx, axisOrder, IdxMap.get, Proj.val]
  ring

/-- What drives one bit of an `outputs_to_mlb` port: a bit of an
`inputs_from_buffer` port, a bit of an `inputs_from_mlb` port (preload
chains), a constant zero tie, or nothing (bit not connected). -/
inductive WDrive : Type
  | buf (idx bit : Nat)
  | mlb (idx bit : Nat)
  | zero
  | nc
deriving DecidableEq, Repr

/-- A digit `a` below `A` plus `A` times a digit below `B` stays below
`A * B`. -/
theorem digit_lt {a A b B : Nat} (ha : a < A) (hb : b < B) :
    a + A * b < A * B := by
  calc a + A * b < A + A * b := by omega
    _ = A * (b + 1) := by ring
    _ ≤ A * B := Nat.mul_le_mul_left _ (Nat.succ_le_of_lt hb)

/-- Quotient of a two-digit mixed-radix number by its radix. -/
theorem mixed_div {a A y : Nat} (ha : a < A) : (a + A * y) / A = y := by
  rw [Nat.add_mul_div_left _ _ (by omega : 0 < A), Nat.div_eq_of_lt ha,
    Nat.zero_add]

/-- Remainder of a two-digit mixed-radix number by its radix. -/
theorem mixed_mod {a A y : Nat} (ha : a < A) : (a + A * y) % A = a := by
  rw [Nat.add_mul_mod_self_left, Nat.mod_eq_of_lt ha]

/-- Streaming-branch drive of bit `bit` of the `outputs_to_mlb` port of
the MLB at loop position `(urw, urn, ue, ub, ug)` (the UB index does not
appear: the stream index excludes UB).  Mirrors the `else` branch of
`WeightInterconnect.construct`: without dilation the whole
`[0, mlb_width_used)` slice comes from the chosen buffer section; with
`dilx > 1` and an inner projection the slice is split into
`num_weight_ins * inner.URW.x` sub-slices of width
`mlb_width_used / (inner.URW.x * num_weight_ins)`, each connected iff
`(inner.URW.x * urw + weight_x) % dilx == 0` and zero-tied otherwise;
with `dilx > 1` and no inner projection the whole slice is connected iff
`urw % dilx == 0`. -/
def wiStreamDrive (p : Proj) (spb mwu dilx : Nat) (ip : Option ProjSub)
    (urw urn ue ug bit : Nat) : WDrive :=
  if 1 < dilx then
    match ip with
    | some ipp =>
      if bit < mwu / (ipp.urwx * num_weight_ins ipp) *
          (num_weight_ins ipp * ipp.urwx) then
        if (ipp.urwx * urw +
            bit / (mwu / (ipp.urwx * num_weight_ins ipp)) % ipp.urwx) % dilx
            = 0 then
          WDrive.buf (wStreamIdx p urw urn ue ug / spb)
            (wStreamIdx p urw urn ue ug % spb * mwu + bit)
        else WDrive.zero
      else WDrive.nc
    | none =>
      if bit < mwu then
        if urw % dilx = 0 then
          WDrive.buf (wStreamIdx p urw urn ue ug / spb)
            (wStreamIdx p urw urn ue ug % spb * mwu + bit)
        else WDrive.zero
      else WDrive.nc
  else
    if bit < mwu then
      WDrive.buf (wStreamIdx p urw urn ue ug / spb)
        (wStreamIdx p urw urn ue ug % spb * mwu + bit)
    else WDrive.nc

/-- The parameters of `WeightInterconnect.construct`. -/
structure WICfg where
  buffer_width : Nat
  mlb_width : Nat
  mlb_width_used : Nat
  num_buffers : Nat
  num_mlbs : Nat
  num_mlbs_used : Nat
  dilx : Nat
  inner : Option ProjSub
deriving DecidableEq, Repr

/-- `streams_per_buffer = ⌊buffer_width / mlb_width_used⌋`. -/
def WICfg.spb (cfg : WICfg) : Nat := cfg.buffer_width / cfg.mlb_width_used

/-- Whether the projection's `PRELOAD` list names W. -/
def wiPreloadW (ps : ProjSpec) : Bool :=
  ps.preload.any fun r => decide (r.dtype = Dtype.W)

/-- Preload chain length `⌈num_mlbs_used / num_buffers⌉`. -/
def wiChainLenCeil (cfg : WICfg) : Nat :=
  (cfg.num_mlbs_used + cfg.num_buffers - 1) / cfg.num_buffers

/-- Preload-branch drive of a bit of `outputs_to_mlb_i` (for `i` on some
chain): the head of chain `c` reads the buffer section of chain `c`, and
every later chain member reads the previous member's `inputs_from_mlb`
port.  Modelled from the spec: the `utils.chain_ports` helper (absent
from the source at hand) realizes "the input of MLB_{i+1} is the output
of MLB_i" over the full `mlb_width`. -/
def wiPreloadDrive (cfg : WICfg) (i bit : Nat) : WDrive :=
  if i % wiChainLenCeil cfg = 0 then
    if bit < cfg.mlb_width_used then
      WDrive.buf (i / wiChainLenCeil cfg / cfg.spb)
        (i / wiChainLenCeil cfg % cfg.spb * cfg.mlb_width_used + bit)
    else WDrive.nc
  else if bit < cfg.mlb_width then WDrive.mlb (i - 1) bit else WDrive.nc

/-- The MLB indices assigned by the streaming loop nest of
`WeightInterconnect.construct` (the image of `wOutIdx` over the
five-deep loop). -/
def wiAssigned (p : Proj) : List Nat :=
  (List.range p.ug).flatMap fun ug =>
    (List.range p.ue).flatMap fun ue =>
      (List.range p.ub).flatMap fun ub =>
        (List.range p.urn).flatMap fun urn =>
          (List.range p.urw).map fun urw => wOutIdx p urw urn ue ub ug

/-- The MLB indices assigned by the preload branch: chain `c` covers
`[c*L, min(num_mlbs_used, c*L + L))` with `L = ⌈num_mlbs_used /
num_buffers⌉` (`start_idx = chain*chain_len`,
`end_idx = min(num_mlbs_used-1, start_idx+chain_len-1)`). -/
def wiPreloadAssigned (cfg : WICfg) : List Nat :=
  (List.range cfg.num_buffers).flatMap fun c =>
    List.range' (c * wiChainLenCeil cfg)
      (min cfg.num_mlbs_used (c * wiChainLenCeil cfg + wiChainLenCeil cfg) -
        c * wiChainLenCeil cfg)

/-- All MLB indices the `WeightInterconnect.construct` main loop assigns
(preload or streaming branch). -/
def weightAssigned (ps : ProjSpec) (cfg : WICfg) : List Nat :=
  if wiPreloadW ps then wiPreloadAssigned cfg else wiAssigned ps.p

/-- The five mixed-radix digits (URW, URN, UE, UB, UG) of an MLB index. -/
def wDigits (p : Proj) (i : Nat) : Nat × Nat × Nat × Nat × Nat :=
  (i % p.urw,
   i / p.urw % p.urn,
   i / (p.urw * p.urn) % p.ue,
   i / (p.urw * p.urn * p.ue) % p.ub,
   i / (p.urw * p.urn * p.ue * p.ub))

/-- Drive of bit `bit` of `outputs_to_mlb_i` after the whole
`WeightInterconnect.construct` ran: the main loop's drive for assigned
indices, a zero tie for the remaining indices below `num_mlbs`
(`newout //= 0` over the full `mlb_width`), and no port otherwise. -/
def weightOutDrive (ps : ProjSpec) (cfg : WICfg) (i bit : Nat) : WDrive :=
  if i ∈ weightAssigned ps cfg then
    if wiPreloadW ps then wiPreloadDrive cfg i bit
    else
      match wDigits ps.p i with
      | (urw, urn, ue, _, ug) =>
        wiStreamDrive ps.p cfg.spb cfg.mlb_width_used cfg.dilx cfg.inner
          urw urn ue ug bit
  else if i < cfg.num_mlbs then
    if bit < cfg.mlb_width then WDrive.zero else WDrive.nc
  else WDrive.nc

/-- The mixed-radix digits recover a valid loop position from its MLB
index. -/
theorem wDigits_wOutIdx (p : Proj) {urw urn ue ub ug : Nat}
    (h1 : urw < p.urw) (h2 : urn < p.urn) (h3 : ue < p.ue)
    (h4 : ub < p.ub) (h5 : ug < p.ug) :
    wDigits p (wOutIdx p urw urn ue ub ug) = (urw, urn, ue, ub, ug) := by
  have e1 := wOutIdx_eq p urw urn ue ub ug
  have d1 : wOutIdx p urw urn ue ub ug % p.urw = urw := by
    rw [e1]; exact mixed_mod h1
  have q1 : wOutIdx p urw urn ue ub ug / p.urw =
      urn + p.urn * (ue + p.ue * (ub + p.ub * ug)) := by
    rw [e1]; exact mixed_div h1
  have d2 : wOutIdx p urw urn ue ub ug / p.urw % p.urn = urn := by
    rw [q1]; exact mixed_mod h2
  have e2 : wOutIdx p urw urn ue ub ug =
      (urw + p.urw * urn) + p.urw * p.urn * (ue + p.ue * (ub + p.ub * ug)) := by
    rw [e1]; ring
  have lt2 : urw + p.urw * urn < p.urw * p.urn := digit_lt h1 h2
  have q2 : wOutIdx p urw urn ue ub ug / (p.urw * p.urn) =
      ue + p.ue * (ub + p.ub * ug) := by
    rw [e2]; exact mixed_div lt2
  have d3 : wOutIdx p urw urn ue ub ug / (p.urw * p.urn) % p.ue = ue := by
    rw [q2]; exact mixed_mod h3
  have e3 : wOutIdx p urw urn ue ub ug =
      (urw + p.urw * (urn + p.urn * ue)) +
        p.urw * p.urn * p.ue * (ub + p.ub * ug) := by
    rw [e1]; ring
  have lt3 : urw + p.urw * (urn + p.urn * ue) < p.urw * p.urn * p.ue := by
    calc urw + p.urw * (urn + p.urn * ue)
        < p.urw * (p.urn * p.ue) := digit_lt h1 (digit_lt h2 h3)
      _ = p.urw * p.urn * p.ue := by ring
  have q3 : wOutIdx p urw urn ue ub ug / (p.urw * p.urn * p.ue) =
      ub + p.ub * ug := by
    rw [e3]; exact mixed_div lt3
  have d4 : wOutIdx p urw urn ue ub ug / (p.urw * p.urn * p.ue) % p.ub
      = ub := by
    rw [q3]; exact mixed_mod h4
  have e4 : wOutIdx p urw urn ue ub ug =
      (urw + p.urw * (urn + p.urn * (ue + p.ue * ub))) +
        p.urw * p.urn * p.ue * p.ub * ug := by
    rw [e1]; ring
  have lt4 : urw + p.urw * (urn + p.urn * (ue + p.ue * ub)) <
      p.urw * p.urn * p.ue * p.ub := by
    calc urw + p.urw * (urn + p.urn * (ue + p.ue * ub))
        < p.urw * (p.urn * (p.ue * p.ub)) :=
          digit_lt h1 (digit_lt h2 (digit_lt h3 h4))
      _ = p.urw * p.urn * p.ue * p.ub := by ring
  have q4 : wOutIdx p urw urn ue ub ug / (p.urw * p.urn * p.ue * p.ub)
      = ug := by
    rw [e4]; exact mixed_div lt4
  simp only [wDigits, d1, d2, d3, d4, q4]

/-- A valid loop position's MLB index is produced by the streaming loop
nest. -/
theorem wOutIdx_mem_wiAssigned (p : Proj) {urw urn ue ub ug : Nat}
    (h1 : urw < p.urw) (h2 : urn < p.urn) (h3 : ue < p.ue)
    (h4 : ub < p.ub) (h5 : ug < p.ug) :
    wOutIdx p urw urn ue ub ug ∈ wiAssigned p := by
  simp only [wiAssigned, List.mem_flatMap, List.mem_map, List.mem_range]
  exact ⟨ug, h5, ue, h3, ub, h4, urn, h2, urw, h1, rfl⟩

/-- On a valid position of a streaming (non-preload-W) projection, the
fabric's final drive is the streaming drive of that position. -/
theorem weightOutDrive_stream_at (ps : ProjSpec) (cfg : WICfg)
    (hpre : wiPreloadW ps = false) {urw urn ue ub ug : Nat}
    (h1 : urw < ps.p.urw) (h2 : urn < ps.p.urn) (h3 : ue < ps.p.ue)
    (h4 : ub < ps.p.ub) (h5 : ug < ps.p.ug) (bit : Nat) :
    weightOutDrive ps cfg (wOutIdx ps.p urw urn ue ub ug) bit =
      wiStreamDrive ps.p cfg.spb cfg.mlb_width_used cfg.dilx cfg.inner
        urw urn ue ug bit := by
  have hmem : wOutIdx ps.p urw urn ue ub ug ∈ weightAssigned ps cfg := by
    simp only [weightAssigned, hpre, Bool.false_eq_true, if_false]
    exact wOutIdx_mem_wiAssigned ps.p h1 h2 h3 h4 h5
  have hd := wDigits_wOutIdx ps.p h1 h2 h3 h4 h5
  simp only [weightOutDrive, if_pos hmem, hpre, Bool.false_eq_true, if_false,
    hd]

/-- Every `buf` drive of the streaming branch points at the section of
the chosen buffer: buffer `⌊stream_idx/streams_per_buffer⌋`, bit
`section * mlb_width_used + bit` with `bit < mlb_width_used`. -/
theorem wiStreamDrive_buf_shape (p : Proj) (spb mwu dilx : Nat)
    (ip : Option ProjSub) (urw urn ue ug bit j o : Nat)
    (h : wiStreamDrive p spb mwu dilx ip urw urn ue ug bit = WDrive.buf j o) :
    j = wStreamIdx p urw urn ue ug / spb ∧
    o = wStreamIdx p urw urn ue ug % spb * mwu + bit ∧
    bit < mwu := by
  revert h
  simp only [wiStreamDrive]
  by_cases hdil : 1 < dilx
  · rw [if_pos hdil]
    cases ip with
    | none =>
      dsimp only
      by_cases hbit : bit < mwu
      · rw [if_pos hbit]
        by_cases hu : urw % dilx = 0
        · rw [if_pos hu]
          intro h
          injection h with hj ho
          exact ⟨hj.symm, ho.symm, hbit⟩
        · rw [if_neg hu]
          intro h
          exact WDrive.noConfusion h
      · rw [if_neg hbit]
        intro h
        exact WDrive.noConfusion h
    | some ipp =>
      dsimp only
      by_cases hreg : bit < mwu / (ipp.urwx * num_weight_ins ipp) *
          (num_weight_ins ipp * ipp.urwx)
      · rw [if_pos hreg]
        by_cases hconn : (ipp.urwx * urw +
            bit / (mwu / (ipp.urwx * num_weight_ins ipp)) % ipp.urwx) % dilx
            = 0
        · rw [if_pos hconn]
          intro h
          injection h with hj ho
          have hle : mwu / (ipp.urwx * num_weight_ins ipp) *
              (num_weight_ins ipp * ipp.urwx) ≤ mwu := by
            calc mwu / (ipp.urwx * num_weight_ins ipp) *
                (num_weight_ins ipp * ipp.urwx)
                = mwu / (ipp.urwx * num_weight_ins ipp) *
                  (ipp.urwx * num_weight_ins ipp) := by ring
              _ ≤ mwu := Nat.div_mul_le_self _ _
          exact ⟨hj.symm, ho.symm, by omega⟩
        · rw [if_neg hconn]
          intro h
          exact WDrive.noConfusion h
      · rw [if_neg hreg]
        intro h
        exact WDrive.noConfusion h
  · rw [if_neg hdil]
    by_cases hbit : bit < mwu
    · rw [if_pos hbit]
      intro h
      injection h with hj ho
      exact ⟨hj.symm, ho.symm, hbit⟩
    · rw [if_neg hbit]
      intro h
      exact WDrive.noConfusion h

/-- C1: for a projection whose `PRELOAD` does not name W, and any valid
MLB position `(urw, urn, ue, ub, ug)`, every bit of `outputs_to_mlb` that
is driven from a buffer is driven from buffer
`⌊stream_idx / streams_per_buffer⌋` at offset
`section * mlb_width_used + bit` (hence inside the slice
`[section * mlb_width_used, (section+1) * mlb_width_used)`), where
`stream_idx` ranges over {URW, URN, UE, UG} only and
`section = stream_idx % streams_per_buffer`; consequently two positions
differing only in UB have identical drives on every bit. -/
theorem WeightInterconnect_streaming (ps : ProjSpec) (cfg : WICfg)
    (urw urn ue ub ug : Nat)
    (hpre : wiPreloadW ps = false)
    (h1 : urw < ps.p.urw) (h2 : urn < ps.p.urn) (h3 : ue < ps.p.ue)
    (h4 : ub < ps.p.ub) (h5 : ug < ps.p.ug) :
    (∀ bit j o,
      weightOutDrive ps cfg (wOutIdx ps.p urw urn ue ub ug) bit =
          WDrive.buf j o →
      j = wStreamIdx ps.p urw urn ue ug / cfg.spb ∧
      o = wStreamIdx ps.p urw urn ue ug % cfg.spb * cfg.mlb_width_used + bit ∧
      bit < cfg.mlb_width_used) ∧
    (∀ ub', ub' < ps.p.ub → ∀ bit,
      weightOutDrive ps cfg (wOutIdx ps.p urw urn ue ub' ug) bit =
        weightOutDrive ps cfg (wOutIdx ps.p urw urn ue ub ug) bit) := by
  constructor
  · intro bit j o h
    rw [weightOutDrive_stream_at ps cfg hpre h1 h2 h3 h4 h5 bit] at h
    exact wiStreamDrive_buf_shape ps.p cfg.spb cfg.mlb_width_used cfg.dilx
      cfg.inner urw urn ue ug bit j o h
  · intro ub' hub' bit
    rw [weightOutDrive_stream_at ps cfg hpre h1 h2 h3 hub' h5 bit,
      weightOutDrive_stream_at ps cfg hpre h1 h2 h3 h4 h5 bit]

/-- The second test projection of `test_WeightInterconnect`: URW=2,
URN=1, UE=1, UB=3, UG=2, no preload. -/
def wTestPs : ProjSpec := ⟨⟨2, 1, 1, 3, 2⟩, []⟩

/-- The matching fabric parameters: 8-bit buffers, 8-bit MLB ports of
which 3 bits are used, 4 buffers, 15 MLBs, no dilation. -/
def wTestCfg : WICfg := ⟨8, 8, 3, 4, 15, 15, 1, none⟩

/-- Witness for C1: at position (urw=1, ub=2, ug=1) of the test
projection the MLB port reads buffer 1 (stream index 3, two streams per
buffer), and changing UB to 0 leaves every bit's drive unchanged. -/
theorem WeightInterconnect_streaming_witness :
    wiPreloadW wTestPs = false ∧
    weightOutDrive wTestPs wTestCfg (wOutIdx wTestPs.p 1 0 0 2 1) 2 =
      WDrive.buf 1 5 ∧
    weightOutDrive wTestPs wTestCfg (wOutIdx wTestPs.p 1 0 0 0 1) 2 =
      weightOutDrive wTestPs wTestCfg (wOutIdx wTestPs.p 1 0 0 2 1) 2 :=
  ⟨by decide, by decide,
    (WeightInterconnect_streaming wTestPs wTestCfg 1 0 0 2 1 (by decide)
      (by decide) (by decide) (by decide) (by decide) (by decide)).2
      0 (by decide) 2⟩

/-- Number of x-offsets `weight_x < inner.URW.x` whose sub-slice the
dilation test `(inner.URW.x * urw + weight_x) % dilx == 0` connects. -/
def countConnectedX (urwx dilx urw : Nat) : Nat :=
  (List.range urwx).countP fun wx => decide ((urwx * urw + wx) % dilx = 0)

/-- Number of weight sub-lanes `(input_gen, weight_x)` of one MLB's
weight port that the dilation branch ties to zero. -/
def zeroed_sublanes (ip : ProjSub) (dilx urw : Nat) : Nat :=
  ((List.range (num_weight_ins ip)).flatMap fun _ig =>
    (List.range ip.urwx).filter fun wx =>
      decide (¬(ip.urwx * urw + wx) % dilx = 0)).length

/-- Counting the complement of a Boolean predicate. -/
theorem countP_not_eq {α : Type} (l : List α) (p : α → Bool) :
    l.countP (fun a => !(p a)) = l.length - l.countP p := by
  induction l with
  | nil => simp
  | cons a l ih =>
    have hle := l.countP_le_length p
    cases hpa : p a <;> simp [List.countP_cons, hpa, ih] <;> omega

/-- C5 (amended): with `dilx > 1` and an inner projection, at any valid
MLB position the sub-slice `(input_gen, weight_x)` of the weight port is
driven from the chosen buffer slice iff
`(inner.URW.x * urw + weight_x) % dilx == 0` and is tied to zero
otherwise, so the number of zero-tied sub-lanes is
`num_weight_ins * (inner.URW.x − |{weight_x < inner.URW.x :
(inner.URW.x * urw + weight_x) % dilx = 0}|)` — not
`⌊N * (dilx−1) / dilx⌋` in general. -/
theorem WeightInterconnect_dilation (ps : ProjSpec) (cfg : WICfg)
    (ipp : ProjSub) (urw urn ue ub ug : Nat)
    (hpre : wiPreloadW ps = false) (hip : cfg.inner = some ipp)
    (hdil : 1 < cfg.dilx)
    (h1 : urw < ps.p.urw) (h2 : urn < ps.p.urn) (h3 : ue < ps.p.ue)
    (h4 : ub < ps.p.ub) (h5 : ug < ps.p.ug)
    (hww : 0 < cfg.mlb_width_used / (ipp.urwx * num_weight_ins ipp)) :
    (∀ ig, ig < num_weight_ins ipp → ∀ wx, wx < ipp.urwx →
      ∀ b, b < cfg.mlb_width_used / (ipp.urwx * num_weight_ins ipp) →
      weightOutDrive ps cfg (wOutIdx ps.p urw urn ue ub ug)
          ((ig * ipp.urwx + wx) *
            (cfg.mlb_width_used / (ipp.urwx * num_weight_ins ipp)) + b) =
        (if (ipp.urwx * urw + wx) % cfg.dilx = 0 then
          WDrive.buf (wStreamIdx ps.p urw urn ue ug / cfg.spb)
            (wStreamIdx ps.p urw urn ue ug % cfg.spb * cfg.mlb_width_used +
              ((ig * ipp.urwx + wx) *
                (cfg.mlb_width_used / (ipp.urwx * num_weight_ins ipp)) + b))
        else WDrive.zero)) ∧
    zeroed_sublanes ipp cfg.dilx urw =
      num_weight_ins ipp *
        (ipp.urwx - countConnectedX ipp.urwx cfg.dilx urw) := by
  constructor
  · intro ig hig wx hwx b hb
    rw [weightOutDrive_stream_at ps cfg hpre h1 h2 h3 h4 h5]
    simp only [wiStreamDrive, hip, if_pos hdil]
    set ww := cfg.mlb_width_used / (ipp.urwx * num_weight_ins ipp) with hwwdef
    have hbit : (ig * ipp.urwx + wx) * ww + b = b + ww * (ig * ipp.urwx + wx) := by
      ring
    have hk : ig * ipp.urwx + wx < num_weight_ins ipp * ipp.urwx := by
      calc ig * ipp.urwx + wx = wx + ipp.urwx * ig := by ring
        _ < ipp.urwx * num_weight_ins ipp := digit_lt hwx hig
        _ = num_weight_ins ipp * ipp.urwx := by ring
    have hreg : (ig * ipp.urwx + wx) * ww + b <
        ww * (num_weight_ins ipp * ipp.urwx) := by
      rw [hbit]
      exact digit_lt hb hk
    have hdiv : ((ig * ipp.urwx + wx) * ww + b) / ww = ig * ipp.urwx + wx := by
      rw [hbit]
      exact mixed_div hb
    have hmod : (ig * ipp.urwx + wx) % ipp.urwx = wx := by
      rw [show ig * ipp.urwx + wx = wx + ipp.urwx * ig from by ring]
      exact mixed_mod hwx
    rw [if_pos hreg, hdiv, hmod]
  · have hlen : ∀ ig : Nat,
        ((List.range ipp.urwx).filter fun wx =>
          decide (¬(ipp.urwx * urw + wx) % cfg.dilx = 0)).length =
        ipp.urwx - countConnectedX ipp.urwx cfg.dilx urw := by
      intro ig
      rw [← List.countP_eq_length_filter]
      calc (List.range ipp.urwx).countP
            (fun wx => decide (¬(ipp.urwx * urw + wx) % cfg.dilx = 0))
          = (List.range ipp.urwx).countP
            (fun wx => !(decide ((ipp.urwx * urw + wx) % cfg.dilx = 0))) := by
            simp only [decide_not]
        _ = (List.range ipp.urwx).length -
            (List.range ipp.urwx).countP
              (fun wx => decide ((ipp.urwx * urw + wx) % cfg.dilx = 0)) :=
            countP_not_eq _ _
        _ = ipp.urwx - countConnectedX ipp.urwx cfg.dilx urw := by
            rw [List.length_range, countConnectedX]
    simp only [zeroed_sublanes, List.length_flatMap]
    have hmap : ∀ x ∈ List.map
        (List.length ∘ fun _ig => (List.range ipp.urwx).filter fun wx =>
          decide (¬(ipp.urwx * urw + wx) % cfg.dilx = 0))
        (List.range (num_weight_ins ipp)),
        x = ipp.urwx - countConnectedX ipp.urwx cfg.dilx urw := by
      intro x hx
      rw [List.mem_map] at hx
      obtain ⟨ig, _, rfl⟩ := hx
      exact hlen ig
    rw [List.eq_replicate_of_mem hmap]
    simp [List.sum_replicate, smul_eq_mul]

/-- An inner projection with all axis values 1 and no `x` sub-axis
(`URW.x` defaults to 1). -/
def innerOnes : ProjSub := ⟨⟨1, 1, 1, 1, 1⟩, none⟩

/-- An outer projection with URW = 2 and every other axis 1, no preload. -/
def projUrw2 : ProjSpec := ⟨⟨2, 1, 1, 1, 1⟩, []⟩

/-- Weight fabric parameters with x-dilation 2 and inner projection
`innerOnes`: 1-bit buffer and MLB ports, 2 MLBs. -/
def cfgDil : WICfg := ⟨1, 1, 1, 1, 2, 2, 2, some innerOnes⟩

/-- C5 (counterexample): with a non-empty inner projection whose
`URW.x = 1` and `num_weight_ins = 1`, `dilx = 2` and outer position
`urw = 1`, the single sub-lane (N = 1) is tied to zero — the claimed
count `⌊N * (dilx−1) / dilx⌋ = 0` is wrong at this MLB position. -/
theorem WeightInterconnect_dilation_counterexample :
    cfgDil.dilx = 2 ∧ cfgDil.inner = some innerOnes ∧
    num_weight_ins innerOnes * innerOnes.urwx = 1 ∧
    zeroed_sublanes innerOnes cfgDil.dilx 1 = 1 ∧
    num_weight_ins innerOnes * innerOnes.urwx * (cfgDil.dilx - 1) /
      cfgDil.dilx = 0 ∧
    zeroed_sublanes innerOnes cfgDil.dilx 1 ≠
      num_weight_ins innerOnes * innerOnes.urwx * (cfgDil.dilx - 1) /
        cfgDil.dilx ∧
    weightOutDrive projUrw2 cfgDil (wOutIdx projUrw2.p 1 0 0 0 0) 0 =
      WDrive.zero := by
  decide

/-- An inner projection with `URW.x = 2` and all axis values 1. -/
def innerX2 : ProjSub := ⟨⟨1, 1, 1, 1, 1⟩, some 2⟩

/-- An outer projection with every axis 1, no preload. -/
def psOnes : ProjSpec := ⟨⟨1, 1, 1, 1, 1⟩, []⟩

/-- Weight fabric parameters with x-dilation 2 and inner projection
`innerX2`: 2-bit buffer and MLB ports. -/
def cfgDilX : WICfg := ⟨2, 2, 2, 1, 1, 1, 2, some innerX2⟩

/-- Witness for C5 (amended): with `inner.URW.x = 2`, `dilx = 2`, at
`urw = 0` the sub-lane `weight_x = 1` is tied to zero and the zero-tied
count is `1 * (2 − 1) = 1`. -/
theorem WeightInterconnect_dilation_witness :
    weightOutDrive psOnes cfgDilX (wOutIdx psOnes.p 0 0 0 0 0)
      ((0 * innerX2.urwx + 1) *
        (cfgDilX.mlb_width_used / (innerX2.urwx * num_weight_ins innerX2)) +
        0) = WDrive.zero ∧
    zeroed_sublanes innerX2 cfgDilX.dilx 0 =
      num_weight_ins innerX2 *
        (innerX2.urwx - countConnectedX innerX2.urwx cfgDilX.dilx 0) := by
  have h := WeightInterconnect_dilation psOnes cfgDilX innerX2 0 0 0 0 0
    (by decide) (by decide) (by decide) (by decide) (by decide) (by decide)
    (by decide) (by decide) (by decide)
  refine ⟨?_, h.2⟩
  have h1 := h.1 0 (by decide) 1 (by decide) 0 (by decide)
  rw [h1]
  decide

/-- Any number is below the next multiple of a positive divisor. -/
theorem lt_div_succ_mul (a b : Nat) (hb : 0 < b) : a < (a / b + 1) * b := by
  have h1 := Nat.div_add_mod a b
  have h2 := Nat.mod_lt a hb
  calc a = b * (a / b) + a % b := h1.symm
    _ < b * (a / b) + b := by omega
    _ = (a / b + 1) * b := by ring

/-- `(start_idx, end_idx)` of preload chain `c` in
`WeightInterconnect.construct`: `chain_len = ⌈M/B⌉`,
`start_idx = chain * chain_len`,
`end_idx = min(num_mlbs_used - 1, start_idx + chain_len - 1)`. -/
def chain_bounds (M B c : Nat) : Nat × Nat :=
  (c * ((M + B - 1) / B),
   min (M - 1) (c * ((M + B - 1) / B) + (M + B - 1) / B - 1))

/-- MLB `i` lies on preload chain `c`. -/
def onChain (M B c i : Nat) : Prop :=
  (chain_bounds M B c).1 ≤ i ∧ i ≤ (chain_bounds M B c).2

instance (M B c i : Nat) : Decidable (onChain M B c i) := by
  unfold onChain
  infer_instance

/-- Number of MLBs on preload chain `c`. -/
def chain_len (M B c : Nat) : Nat :=
  (chain_bounds M B c).2 + 1 - (chain_bounds M B c).1

/-- C4 (counterexample): with `M = 7` used MLBs and `B = 3` buffers,
`⌈M/B⌉ = 3` and chain 2 holds only MLB 6, so its length 1 is neither
`⌈M/B⌉` nor `⌈M/B⌉ − 1`. -/
theorem WeightInterconnect_preload_counterexample :
    (7 + 3 - 1) / 3 = 3 ∧
    onChain 7 3 2 6 ∧
    chain_len 7 3 2 = 1 ∧
    chain_len 7 3 2 ≠ (7 + 3 - 1) / 3 ∧
    chain_len 7 3 2 ≠ (7 + 3 - 1) / 3 - 1 := by
  decide

/-- C4 (amended): for `M ≥ 1` used MLBs and `B ≥ 1` buffers, every used
MLB lies on exactly one of the `B` chains, and chain `c` has length
`min(⌈M/B⌉, M − c·⌈M/B⌉)`: full chains hold `⌈M/B⌉` MLBs, the last
non-empty chain may be shorter, and later chains are empty. -/
theorem WeightInterconnect_preload_chains (M B : Nat)
    (hM : 1 ≤ M) (hB : 1 ≤ B) :
    (∀ i, i < M → ∃! c, c < B ∧ onChain M B c i) ∧
    (∀ c, c < B →
      chain_len M B c =
        min ((M + B - 1) / B) (M - c * ((M + B - 1) / B))) := by
  have hL1 : (M + B - 1) / B = (M - 1) / B + 1 := by
    rw [show M + B - 1 = (M - 1) + B from by omega, Nat.add_div_right _ (by omega)]
  have hLpos : 0 < (M + B - 1) / B := by
    rw [hL1]; exact Nat.succ_pos _
  have hML : M ≤ B * ((M + B - 1) / B) := by
    have hlt : (M - 1) / B < (M + B - 1) / B := by
      rw [hL1]; exact Nat.lt_succ_self _
    have h2 := (Nat.div_lt_iff_lt_mul (show 0 < B by omega)).mp hlt
    rw [Nat.mul_comm] at h2
    omega
  constructor
  · intro i hi
    refine ⟨i / ((M + B - 1) / B), ⟨?_, ?_, ?_⟩, ?_⟩
    · exact (Nat.div_lt_iff_lt_mul hLpos).mpr (by omega)
    · exact Nat.div_mul_le_self i _
    · apply le_min
      · omega
      · have h := lt_div_succ_mul i ((M + B - 1) / B) hLpos
        rw [show (i / ((M + B - 1) / B) + 1) * ((M + B - 1) / B) =
          i / ((M + B - 1) / B) * ((M + B - 1) / B) + (M + B - 1) / B
          from by ring] at h
        omega
    · rintro c' ⟨hc', hs, he⟩
      have he2 : i < c' * ((M + B - 1) / B) + (M + B - 1) / B := by
        have h := le_trans he (min_le_right _ _)
        omega
      exact (Nat.div_eq_of_lt_le hs
        (by rw [show (c' + 1) * ((M + B - 1) / B) =
          c' * ((M + B - 1) / B) + (M + B - 1) / B from by ring]
            exact he2)).symm
  · intro c hc
    have hgoal : ∀ x L0 : Nat, 1 ≤ L0 → 1 ≤ M →
        min (M - 1) (x + L0 - 1) + 1 - x = min L0 (M - x) := by
      intro x L0 ha hb2
      omega
    simp only [chain_len, chain_bounds]
    exact hgoal (c * ((M + B - 1) / B)) ((M + B - 1) / B) (by omega) hM

/-- Witness for C4 (amended) at `M = 7`, `B = 3`: MLB 6 lies on exactly
one chain and chain 1 is full (`length 3`) while chain 2 has length 1. -/
theorem WeightInterconnect_preload_chains_witness :
    (∃! c, c < 3 ∧ onChain 7 3 c 6) ∧
    chain_len 7 3 1 = min ((7 + 3 - 1) / 3) (7 - 1 * ((7 + 3 - 1) / 3)) ∧
    chain_len 7 3 2 = min ((7 + 3 - 1) / 3) (7 - 2 * ((7 + 3 - 1) / 3)) :=
  ⟨(WeightInterconnect_preload_chains 7 3 (by decide) (by decide)).1 6
      (by decide),
    (WeightInterconnect_preload_chains 7 3 (by decide) (by decide)).2 1
      (by decide),
    (WeightInterconnect_preload_chains 7 3 (by decide) (by decide)).2 2
      (by decide)⟩

/-- The partial-sum chain index of `OutputPSInterconnect.construct`:
`get_overall_idx` over {UB, UG, UE}. -/
def psChainIdx (p : Proj) (ug ue ub : Nat) : Nat :=
  get_overall_idx p ⟨none, none, some ue, some ub, some ug⟩

/-- Closed form of the partial-sum chain index. -/
theorem psChainIdx_eq (p : Proj) (ug ue ub : Nat) :
    psChainIdx p ug ue ub = ue + p.ue * (ub + p.ub * ug) := by
  simp [psChainIdx, get_overall_idx, axisOrder, IdxMap.get, Proj.val]
  ring

/-- What drives one bit of an `outputs_to_mlb` port of the output
interconnect: a zero tie, a slice of a `ps_inputs_from_buffer` port, or
the previous MLB's `inputs_from_mlb` port. -/
inductive PsDrive : Type
  | zero
  | psbuf (idx bit : Nat)
  | mlb (idx bit : Nat)
  | nc
deriving DecidableEq, Repr

/-- Drive of bit `bit` of `outputs_to_mlb_i` in
`OutputPSInterconnect.construct`: chains of `URW*URN` MLBs cover the
indices below `(UE*UB*UG) * (URW*URN)` (the chain indices sweep
`[0, UE*UB*UG)`); a chain head's first `mlb_width_used` bits are zero
when no PS-load buffers exist and otherwise read the buffer section of
the chain; a non-head member reads its predecessor (the chaining is
modelled from the spec, `utils.chain_ports` being absent from the source
at hand); unassigned indices below `num_mlbs` are zero-tied. -/
def psOutDrive (p : Proj) (mlbw mwu num_input_bufs input_buf_width
    num_mlbs : Nat) (i bit : Nat) : PsDrive :=
  if i < p.ue * p.ub * p.ug * (p.urw * p.urn) then
    if i % (p.urw * p.urn) = 0 then
      if bit < mwu then
        if num_input_bufs = 0 then PsDrive.zero
        else
          PsDrive.psbuf (i / (p.urw * p.urn) / (input_buf_width / mwu))
            (i / (p.urw * p.urn) % (input_buf_width / mwu) * mwu + bit)
      else PsDrive.nc
    else if bit < mlbw then PsDrive.mlb (i - 1) bit else PsDrive.nc
  else if i < num_mlbs then
    if bit < mlbw then PsDrive.zero else PsDrive.nc
  else PsDrive.nc

/-- What drives an `outputs_to_afs` port: a slice of the chain tail's
`inputs_from_mlb` port, or a zero tie for unconnected ports. -/
inductive AfDrive : Type
  | tail (mlbIdx bit : Nat)
  | zero
deriving DecidableEq, Repr

/-- Drive of `outputs_to_afs_j`: the connected ports are
`j = chain_idx * acts_per_stream + out_part`, reading bits
`[out_part * af_width, (out_part+1) * af_width)` of the chain tail
(`inputs_from_mlb` of the last chain member); the rest are zero-tied. -/
def psAfDrive (p : Proj) (mwu af_width num_afs : Nat) (j : Nat) : AfDrive :=
  if j < p.ue * p.ub * p.ug * (mwu / af_width) then
    AfDrive.tail
      (j / (mwu / af_width) * (p.urw * p.urn) + (p.urw * p.urn) - 1)
      (j % (mwu / af_width) * af_width)
  else AfDrive.zero

/-- The chain index of a valid position is below `UE * UB * UG`. -/
theorem psChainIdx_lt (p : Proj) {ug ue ub : Nat}
    (hug : ug < p.ug) (hue : ue < p.ue) (hub : ub < p.ub) :
    psChainIdx p ug ue ub < p.ue * p.ub * p.ug := by
  rw [psChainIdx_eq]
  calc ue + p.ue * (ub + p.ub * ug)
      < p.ue * (p.ub * p.ug) := digit_lt hue (digit_lt hub hug)
    _ = p.ue * p.ub * p.ug := by ring

/-- C7: with no PS-load buffers configured, `af_width ∣ mlb_width_used`,
and a valid chain `(ug, ue, ub)`, the chain head's first
`mlb_width_used` bits are tied to zero, and activation output
`chain_idx * acts_per_stream + part` reads bits
`[part * af_width, (part+1) * af_width)` of the chain tail
`inputs_from_mlb_{chain_idx * URW*URN + URW*URN - 1}`. -/
theorem OutputPSInterconnect_chain (p : Proj)
    (af_width mwu mlbw nm naf ibw ug ue ub : Nat)
    (hdvd : af_width ∣ mwu) (haf : 0 < af_width) (hmwu : 0 < mwu)
    (hurw : 0 < p.urw) (hurn : 0 < p.urn)
    (hug : ug < p.ug) (hue : ue < p.ue) (hub : ub < p.ub) :
    (∀ bit, bit < mwu →
      psOutDrive p mlbw mwu 0 ibw nm
        (psChainIdx p ug ue ub * (p.urw * p.urn)) bit = PsDrive.zero) ∧
    (∀ part, part < mwu / af_width →
      psAfDrive p mwu af_width naf
          (psChainIdx p ug ue ub * (mwu / af_width) + part) =
        AfDrive.tail
          (psChainIdx p ug ue ub * (p.urw * p.urn) + (p.urw * p.urn) - 1)
          (part * af_width)) := by
  have hcidx := psChainIdx_lt p hug hue hub
  constructor
  · intro bit hbit
    have hcl : 0 < p.urw * p.urn := Nat.mul_pos hurw hurn
    have hin : psChainIdx p ug ue ub * (p.urw * p.urn) <
        p.ue * p.ub * p.ug * (p.urw * p.urn) :=
      (Nat.mul_lt_mul_right hcl).mpr hcidx
    have hhead : psChainIdx p ug ue ub * (p.urw * p.urn) %
        (p.urw * p.urn) = 0 := Nat.mul_mod_left _ _
    simp [psOutDrive, if_pos hin, hhead, hbit]
  · intro part hpart
    have hj : psChainIdx p ug ue ub * (mwu / af_width) + part <
        p.ue * p.ub * p.ug * (mwu / af_width) := by
      calc psChainIdx p ug ue ub * (mwu / af_width) + part
          = part + (mwu / af_width) * psChainIdx p ug ue ub := by ring
        _ < (mwu / af_width) * (p.ue * p.ub * p.ug) := digit_lt hpart hcidx
        _ = p.ue * p.ub * p.ug * (mwu / af_width) := by ring
    have hdiv : (psChainIdx p ug ue ub * (mwu / af_width) + part) /
        (mwu / af_width) = psChainIdx p ug ue ub := by
      rw [show psChainIdx p ug ue ub * (mwu / af_width) + part =
        part + (mwu / af_width) * psChainIdx p ug ue ub from by ring]
      exact mixed_div hpart
    have hmod : (psChainIdx p ug ue ub * (mwu / af_width) + part) %
        (mwu / af_width) = part := by
      rw [show psChainIdx p ug ue ub * (mwu / af_width) + part =
        part + (mwu / af_width) * psChainIdx p ug ue ub from by ring]
      exact mixed_mod hpart
    simp only [psAfDrive, if_pos hj, hdiv, hmod]

/-- The projection of `test_OutputPSInterconnect`: URW=2, URN=2, UE=1,
UB=2, UG=1. -/
def pPsTest : Proj := ⟨2, 2, 1, 2, 1⟩

/-- Witness for C7 on the test projection with `af_width = 3`,
`mlb_width_used = 6`: chain (0,0,1) has head `outputs_to_mlb_4` tied to
zero and `outputs_to_afs_2` reads bits [0,3) of `inputs_from_mlb_7`. -/
theorem OutputPSInterconnect_chain_witness :
    psOutDrive pPsTest 10 6 0 0 10
      (psChainIdx pPsTest 0 0 1 * (pPsTest.urw * pPsTest.urn)) 0 =
      PsDrive.zero ∧
    psAfDrive pPsTest 6 3 6 (psChainIdx pPsTest 0 0 1 * (6 / 3) + 0) =
      AfDrive.tail
        (psChainIdx pPsTest 0 0 1 * (pPsTest.urw * pPsTest.urn) +
          (pPsTest.urw * pPsTest.urn) - 1)
        (0 * 3) :=
  ⟨(OutputPSInterconnect_chain pPsTest 3 6 10 10 6 0 0 0 1 (by decide)
      (by decide) (by decide) (by decide) (by decide) (by decide)
      (by decide) (by decide)).1 0 (by decide),
    (OutputPSInterconnect_chain pPsTest 3 6 10 10 6 0 0 0 1 (by decide)
      (by decide) (by decide) (by decide) (by decide) (by decide)
      (by decide) (by decide)).2 0 (by decide)⟩

/-- The MLB count bound of the constructors,
`get_var_product(projection, ['UG','UE','UB','URN','URW'])`, as a plain
product. -/
theorem get_var_product_mlbs (p : Proj) :
    get_var_product p [Axis.UG, Axis.UE, Axis.UB, Axis.URN, Axis.URW] =
      p.urw * (p.urn * (p.ue * (p.ub * p.ug))) := by
  simp [get_var_product, Proj.val]
  ring

/-- A valid position's MLB index is below the required MLB count. -/
theorem wOutIdx_lt (p : Proj) {urw urn ue ub ug : Nat}
    (h1 : urw < p.urw) (h2 : urn < p.urn) (h3 : ue < p.ue)
    (h4 : ub < p.ub) (h5 : ug < p.ug) :
    wOutIdx p urw urn ue ub ug <
      get_var_product p [Axis.UG, Axis.UE, Axis.UB, Axis.URN, Axis.URW] := by
  rw [wOutIdx_eq, get_var_product_mlbs]
  exact digit_lt h1 (digit_lt h2 (digit_lt h3 (digit_lt h4 h5)))

/-- Every index the streaming weight loop assigns is below the required
MLB count. -/
theorem wiAssigned_lt {p : Proj} {x : Nat} (hx : x ∈ wiAssigned p) :
    x < get_var_product p [Axis.UG, Axis.UE, Axis.UB, Axis.URN, Axis.URW] := by
  simp only [wiAssigned, List.mem_flatMap, List.mem_map, List.mem_range] at hx
  obtain ⟨ug, hug, ue, hue, ub, hub, urn, hurn, urw, hurw, rfl⟩ := hx
  exact wOutIdx_lt p hurw hurn hue hub hug

/-- Every index the preload chains assign is below `num_mlbs_used`. -/
theorem wiPreloadAssigned_lt {cfg : WICfg} {x : Nat}
    (hx : x ∈ wiPreloadAssigned cfg) : x < cfg.num_mlbs_used := by
  simp only [wiPreloadAssigned, List.mem_flatMap, List.mem_range] at hx
  obtain ⟨c, _, hmem⟩ := hx
  rw [List.mem_range'_1] at hmem
  omega

/-- The bound the weight fabric's main loop respects: `num_mlbs_used` in
the preload branch, the full unrolling product in the streaming branch. -/
def weightAssignedBound (ps : ProjSpec) (cfg : WICfg) : Nat :=
  if wiPreloadW ps then cfg.num_mlbs_used
  else get_var_product ps.p [Axis.UG, Axis.UE, Axis.UB, Axis.URN, Axis.URW]

/-- `outputs_to_mlb_i` and `inputs_from_mlb_i` exist on the weight
fabric iff the main loop assigned `i` or the final tie-off loop
(`for i in range(num_mlbs)`) created them. -/
def weightHasMlbPortPair (ps : ProjSpec) (cfg : WICfg) (i : Nat) : Prop :=
  i ∈ weightAssigned ps cfg ∨ i < cfg.num_mlbs

/-- Sub-axis recomposition stays below the axis value: with
`0 < ay`, `a < v / ay` and `b < ay`, `a * ay + b < v`. -/
theorem sub_axis_lt {a ay v b : Nat} (ha : a < v / ay) (hb : b < ay) :
    a * ay + b < v := by
  have h1 : (a + 1) * ay ≤ v / ay * ay := Nat.mul_le_mul_right ay ha
  have h2 : v / ay * ay ≤ v := Nat.div_mul_le_self v ay
  have h3 : (a + 1) * ay = a * ay + ay := by ring
  omega

/-- The input-fabric projection data: axis values plus the `y` sub-axes
of UB and URN (`projection['UB'].get('y', 1)`,
`projection['URN'].get('y', 1)`). -/
structure ProjIn where
  p : Proj
  ub_y : Nat
  urn_y : Nat
deriving DecidableEq, Repr

/-- The input chain index of `InputInterconnect.construct`:
`get_overall_idx` over {URN, UB, UG, UE}. -/
def iiChainIdx (p : Proj) (urn ub ue ug : Nat) : Nat :=
  get_overall_idx p ⟨none, some urn, some ue, some ub, some ug⟩

/-- Closed form of the input chain index. -/
theorem iiChainIdx_eq (p : Proj) (urn ub ue ug : Nat) :
    iiChainIdx p urn ub ue ug =
      urn + p.urn * (ue + p.ue * (ub + p.ub * ug)) := by
  simp [iiChainIdx, get_overall_idx, axisOrder, IdxMap.get, Proj.val]
  ring

/-- The MLB indices the `InputInterconnect.construct` loop nest assigns:
for each `(ug, ue, ubb, urnc, uby, urny)` the URW-long cascade chain
starting at `chain_idx * URW`, with `ub = ubb * UB.y + uby` and
`urn = urnc * URN.y + urny`. -/
def iiAssigned (pi : ProjIn) : List Nat :=
  (List.range pi.p.ug).flatMap fun ug =>
    (List.range pi.p.ue).flatMap fun ue =>
      (List.range (pi.p.ub / pi.ub_y)).flatMap fun ubb =>
        (List.range (pi.p.urn / pi.urn_y)).flatMap fun urnc =>
          (List.range pi.ub_y).flatMap fun uby =>
            (List.range pi.urn_y).flatMap fun urny =>
              (List.range pi.p.urw).map fun k =>
                iiChainIdx pi.p (urnc * pi.urn_y + urny)
                  (ubb * pi.ub_y + uby) ue ug * pi.p.urw + k

/-- What drives one bit of an `outputs_to_mlb` port of the input fabric:
a zero tie, the previous chain member (URW cascade), or — for chain
heads — the buffer/mux network, whose bit-level detail no claim here
inspects. -/
inductive IDrive : Type
  | zero
  | casc (idx bit : Nat)
  | head
  | nc
deriving DecidableEq, Repr

/-- Drive of bit `bit` of `outputs_to_mlb_i` of
`InputInterconnect.construct`: assigned chain heads read the
buffer/mux network, later chain members cascade from their predecessor
(chaining modelled from the spec, `utils.chain_ports` being absent from
the source at hand), and unassigned indices below `num_mlbs` are
zero-tied. -/
def iiOutDrive (pi : ProjIn) (mlbw num_mlbs : Nat) (i bit : Nat) : IDrive :=
  if i ∈ iiAssigned pi then
    if i % pi.p.urw = 0 then IDrive.head
    else if bit < mlbw then IDrive.casc (i - 1) bit else IDrive.nc
  else if i < num_mlbs then
    if bit < mlbw then IDrive.zero else IDrive.nc
  else IDrive.nc

/-- `outputs_to_mlb_i` / `inputs_from_mlb_i` existence on the input
fabric. -/
def inputHasMlbPortPair (pi : ProjIn) (num_mlbs i : Nat) : Prop :=
  i ∈ iiAssigned pi ∨ i < num_mlbs

/-- `outputs_to_mlb_i` / `inputs_from_mlb_i` existence on the output
fabric (the chains cover exactly `[0, UE*UB*UG * (URW*URN))`). -/
def outputHasMlbPortPair (p : Proj) (num_mlbs i : Nat) : Prop :=
  i < p.ue * p.ub * p.ug * (p.urw * p.urn) ∨ i < num_mlbs

/-- Every index the input loop nest assigns is below the required MLB
count. -/
theorem iiAssigned_lt {pi : ProjIn} {x : Nat}
    (hy1 : 0 < pi.ub_y) (hy2 : 0 < pi.urn_y) (hx : x ∈ iiAssigned pi) :
    x < get_var_product pi.p
      [Axis.UG, Axis.UE, Axis.UB, Axis.URN, Axis.URW] := by
  simp only [iiAssigned, List.mem_flatMap, List.mem_map, List.mem_range] at hx
  obtain ⟨ug, hug, ue, hue, ubb, hubb, urnc, hurnc, uby, huby, urny, hurny,
    k, hk, rfl⟩ := hx
  have hurn : urnc * pi.urn_y + urny < pi.p.urn := sub_axis_lt hurnc hurny
  have hub : ubb * pi.ub_y + uby < pi.p.ub := sub_axis_lt hubb huby
  have hcidx : iiChainIdx pi.p (urnc * pi.urn_y + urny)
      (ubb * pi.ub_y + uby) ue ug <
      pi.p.urn * (pi.p.ue * (pi.p.ub * pi.p.ug)) := by
    rw [iiChainIdx_eq]
    exact digit_lt hurn (digit_lt hue (digit_lt hub hug))
  rw [get_var_product_mlbs]
  calc iiChainIdx pi.p (urnc * pi.urn_y + urny) (ubb * pi.ub_y + uby) ue ug *
        pi.p.urw + k
      = k + pi.p.urw * iiChainIdx pi.p (urnc * pi.urn_y + urny)
          (ubb * pi.ub_y + uby) ue ug := by ring
    _ < pi.p.urw * (pi.p.urn * (pi.p.ue * (pi.p.ub * pi.p.ug))) :=
        digit_lt hk hcidx

/-- C10: in each of the three fabrics, under the constructors' MLB-count
assertions, an `outputs_to_mlb_i` / `inputs_from_mlb_i` pair exists
exactly for `i < num_mlbs` (the loop nest only assigns indices below
`num_mlbs` and the final loop creates the rest), and every
`outputs_to_mlb_i` the loop nest did not assign is tied to constant
zero over the full `mlb_width`. -/
theorem interconnect_mlb_port_invariant
    (ps : ProjSpec) (cfg : WICfg) (pi : ProjIn) (mlbwI nmI : Nat)
    (pO : Proj) (mlbwO mwuO nibO ibwO nmO : Nat)
    (hWnm : weightAssignedBound ps cfg ≤ cfg.num_mlbs)
    (hy1 : 0 < pi.ub_y) (hy2 : 0 < pi.urn_y)
    (hInm : get_var_product pi.p
      [Axis.UG, Axis.UE, Axis.UB, Axis.URN, Axis.URW] ≤ nmI)
    (hOnm : pO.ue * pO.ub * pO.ug * (pO.urw * pO.urn) ≤ nmO) :
    (∀ i, weightHasMlbPortPair ps cfg i ↔ i < cfg.num_mlbs) ∧
    (∀ i bit, i < cfg.num_mlbs → i ∉ weightAssigned ps cfg →
      bit < cfg.mlb_width → weightOutDrive ps cfg i bit = WDrive.zero) ∧
    (∀ i, inputHasMlbPortPair pi nmI i ↔ i < nmI) ∧
    (∀ i bit, i < nmI → i ∉ iiAssigned pi → bit < mlbwI →
      iiOutDrive pi mlbwI nmI i bit = IDrive.zero) ∧
    (∀ i, outputHasMlbPortPair pO nmO i ↔ i < nmO) ∧
    (∀ i bit, i < nmO → ¬i < pO.ue * pO.ub * pO.ug * (pO.urw * pO.urn) →
      bit < mlbwO →
      psOutDrive pO mlbwO mwuO nibO ibwO nmO i bit = PsDrive.zero) := by
  refine ⟨?_, ?_, ?_, ?_, ?_, ?_⟩
  · intro i
    constructor
    · rintro (hmem | hlt)
      · by_cases hpre : wiPreloadW ps
        · simp only [weightAssigned, hpre, if_true] at hmem
          have h := wiPreloadAssigned_lt hmem
          have hb : weightAssignedBound ps cfg = cfg.num_mlbs_used := by
            simp [weightAssignedBound, hpre]
          omega
        · simp only [weightAssigned, hpre, Bool.false_eq_true, if_false]
            at hmem
          have h := wiAssigned_lt hmem
          have hb : weightAssignedBound ps cfg =
              get_var_product ps.p
                [Axis.UG, Axis.UE, Axis.UB, Axis.URN, Axis.URW] := by
            simp [weightAssignedBound, hpre]
          omega
      · exact hlt
    · exact Or.inr
  · intro i bit hlt hnmem hbit
    simp only [weightOutDrive, if_neg hnmem, if_pos hlt, if_pos hbit]
  · intro i
    constructor
    · rintro (hmem | hlt)
      · have h := iiAssigned_lt hy1 hy2 hmem
        omega
      · exact hlt
    · exact Or.inr
  · intro i bit hlt hnmem hbit
    simp only [iiOutDrive, if_neg hnmem, if_pos hlt, if_pos hbit]
  · intro i
    constructor
    · rintro (hmem | hlt)
      · omega
      · exact hlt
    · exact Or.inr
  · intro i bit hlt hnmem hbit
    simp only [psOutDrive, if_neg hnmem, if_pos hlt, if_pos hbit]

/-- The first input-fabric test projection: URW=2, UB=4, other axes 1,
no `y` sub-axes. -/
def pInTest : ProjIn := ⟨⟨2, 1, 1, 4, 1⟩, 1, 1⟩

/-- Witness for C10 on the three test configurations: MLB 14 of the
weight fabric (12 assigned, 15 MLBs), MLB 9 of the input fabric
(8 assigned, 10 MLBs) and MLB 9 of the output fabric (8 assigned,
10 MLBs) all expose port pairs and are tied to zero. -/
theorem interconnect_mlb_port_invariant_witness :
    (weightHasMlbPortPair wTestPs wTestCfg 14 ↔ 14 < wTestCfg.num_mlbs) ∧
    weightOutDrive wTestPs wTestCfg 14 0 = WDrive.zero ∧
    (inputHasMlbPortPair pInTest 10 9 ↔ 9 < 10) ∧
    iiOutDrive pInTest 8 10 9 0 = IDrive.zero ∧
    (outputHasMlbPortPair pPsTest 10 9 ↔ 9 < 10) ∧
    psOutDrive pPsTest 10 6 0 0 10 9 0 = PsDrive.zero := by
  have H := interconnect_mlb_port_invariant wTestPs wTestCfg pInTest 8 10
    pPsTest 10 6 0 0 10 (by decide) (by decide) (by decide) (by decide)
    (by decide)
  exact ⟨H.1 14,
    H.2.1 14 0 (by decide) (by decide) (by decide),
    H.2.2.1 9,
    H.2.2.2.1 9 0 (by decide) (by decide) (by decide),
    H.2.2.2.2.1 9,
    H.2.2.2.2.2 9 0 (by decide) (by decide) (by decide)⟩

/-- A workload: the seven loop extents {B, C, E, PX, PY, RX, RY}. -/
structure Workload where
  b : Nat
  c : Nat
  e : Nat
  px : Nat
  py : Nat
  rx : Nat
  ry : Nat
deriving DecidableEq, Repr

/-- The three factors of one workload axis of a mapping: outer spatial
(`*O`), inner spatial (`*I`), temporal tile (`*T`). -/
structure AxisFactors where
  o : Nat
  i : Nat
  t : Nat
deriving DecidableEq, Repr

/-- Modelled from the spec: all factor triples `(AO, AI, AT)` of one
workload axis with `AO * AI * AT = n`, generated in lexicographic order
of `(AO, AI)` (`constraint_evaluation.find_mappings` is not among the
source files at hand; only its tests are). -/
def factorTriples (n : Nat) : List AxisFactors :=
  (List.range (n + 1)).flatMap fun ao =>
    (List.range (n + 1)).flatMap fun ai =>
      (List.range (n + 1)).filterMap fun at0 =>
        if ao * ai * at0 = n then some ⟨ao, ai, at0⟩ else none

/-- Every generated triple multiplies out to the axis extent. -/
theorem factorTriples_prod {n : Nat} {f : AxisFactors}
    (hf : f ∈ factorTriples n) : f.o * f.i * f.t = n := by
  simp only [factorTriples, List.mem_flatMap, List.mem_filterMap,
    List.mem_range] at hf
  obtain ⟨ao, _, ai, _, at0, _, hif⟩ := hf
  by_cases h : ao * ai * at0 = n
  · rw [if_pos h] at hif
    cases hif
    exact h
  · rw [if_neg h] at hif
    exact Option.noConfusion hif

/-- A mapping: one factor triple per workload axis (21 integers). -/
structure CMapping where
  b : AxisFactors
  c : AxisFactors
  e : AxisFactors
  px : AxisFactors
  py : AxisFactors
  rx : AxisFactors
  ry : AxisFactors
deriving DecidableEq, Repr

/-- Product of the seven inner (`*I`) factors: the MACs one inner tile
uses. -/
def inner_product (mp : CMapping) : Nat :=
  mp.b.i * mp.c.i * mp.e.i * mp.px.i * mp.py.i * mp.rx.i * mp.ry.i

/-- An upper bound on the native unrolling axes of an MLB
(`possible_projections`). -/
structure PossibleProj where
  urw : Nat
  urn : Nat
  ub : Nat
  ue : Nat
  ug : Nat
deriving DecidableEq, Repr

/-- The MLB-spec data the enumerator reads. -/
structure HwbSpec where
  num_units : Nat
  access_patterns : List Nat
  possible_projections : Option PossibleProj
deriving DecidableEq, Repr

/-- Modelled from the spec: the inner factorization viewed as a request
on the native unrolling axes — URW carries RX, URN carries RY and C, UB
carries B and the planar axes, UE carries E. -/
def inner_proj_request (mp : CMapping) : PossibleProj :=
  ⟨mp.rx.i, mp.ry.i * mp.c.i, mp.b.i * mp.px.i * mp.py.i, mp.e.i, 1⟩

/-- Modelled from the spec: the rewriting rules — an overflowing URW
request folds into URN when the native URN is 1, and overflowing URN /
UB / UE requests fold into UG when the native UG is 1. -/
def fold_request (pp : PossibleProj) (r : PossibleProj) : PossibleProj :=
  let r1 : PossibleProj :=
    if pp.urw < r.urw ∧ pp.urn = 1 then ⟨1, r.urn * r.urw, r.ub, r.ue, r.ug⟩
    else r
  let r2 : PossibleProj :=
    if pp.urn < r1.urn ∧ pp.ug = 1 then ⟨r1.urw, 1, r1.ub, r1.ue, r1.ug * r1.urn⟩
    else r1
  let r3 : PossibleProj :=
    if pp.ub < r2.ub ∧ pp.ug = 1 then ⟨r2.urw, r2.urn, 1, r2.ue, r2.ug * r2.ub⟩
    else r2
  if pp.ue < r3.ue ∧ pp.ug = 1 then ⟨r3.urw, r3.urn, r3.ub, 1, r3.ug * r3.ue⟩
  else r3

/-- Modelled from the spec: the inner factorization respects
`possible_projections` after folding (no bound when the key is absent). -/
def respects_hw (hw : HwbSpec) (mp : CMapping) : Bool :=
  match hw.possible_projections with
  | none => true
  | some pp =>
    let r := fold_request pp (inner_proj_request mp)
    decide (r.urw ≤ pp.urw) && decide (r.urn ≤ pp.urn) &&
      decide (r.ub ≤ pp.ub) && decide (r.ue ≤ pp.ue) &&
      decide (r.ug ≤ pp.ug)

/-- Modelled from the spec: the access-pattern cost, a weighted sum of
mismatch indicators between the inner factorization and the five
access-pattern weights.  The spec does not pin the individual mismatch
tests down; the properties verified here do not depend on them. -/
def access_cost (hw : HwbSpec) (mp : CMapping) : Nat :=
  (hw.access_patterns.zip
    [if 1 < mp.rx.i then 1 else 0,
     if 1 < mp.ry.i * mp.c.i then 1 else 0,
     if 1 < mp.b.i * mp.px.i * mp.py.i then 1 else 0,
     if 1 < mp.e.i then 1 else 0,
     if 1 < mp.c.t then 1 else 0]).foldl
    (fun acc wm => acc + wm.1 * wm.2) 0

/-- All factorizations of the workload, axes iterated in the fixed order
B, C, E, PX, PY, RX, RY. -/
def allFactorizations (w : Workload) : List CMapping :=
  (factorTriples w.b).flatMap fun fb =>
    (factorTriples w.c).flatMap fun fc =>
      (factorTriples w.e).flatMap fun fe =>
        (factorTriples w.px).flatMap fun fpx =>
          (factorTriples w.py).flatMap fun fpy =>
            (factorTriples w.rx).flatMap fun frx =>
              (factorTriples w.ry).map fun fry =>
                ⟨fb, fc, fe, fpx, fpy, frx, fry⟩

/-- Modelled from the spec: the admissible-mapping list of
`constraint_evaluation.find_mappings` — every factorization of the
workload whose inner factors fit in the MAC budget, respect the native
projection bounds, and (in hard mode) have zero access-pattern cost.
The throughput scalar of the source's return pair is not modelled. -/
def find_mappings (hw : HwbSpec) (w : Workload) (macs : Nat)
    (soft : Bool) : List CMapping :=
  (allFactorizations w).filter fun mp =>
    decide (inner_product mp ≤ macs) && respects_hw hw mp &&
      (soft || decide (access_cost hw mp = 0))

/-- C9: every mapping returned by `find_mappings` factors each workload
axis exactly (`AO * AI * AT = w[A]` for all seven axes) and its inner
factors fit in the MAC budget. -/
theorem find_mappings_factorization (hw : HwbSpec) (w : Workload)
    (macs : Nat) (soft : Bool) (mp : CMapping)
    (hmp : mp ∈ find_mappings hw w macs soft) :
    mp.b.o * mp.b.i * mp.b.t = w.b ∧
    mp.c.o * mp.c.i * mp.c.t = w.c ∧
    mp.e.o * mp.e.i * mp.e.t = w.e ∧
    mp.px.o * mp.px.i * mp.px.t = w.px ∧
    mp.py.o * mp.py.i * mp.py.t = w.py ∧
    mp.rx.o * mp.rx.i * mp.rx.t = w.rx ∧
    mp.ry.o * mp.ry.i * mp.ry.t = w.ry ∧
    inner_product mp ≤ macs := by
  simp only [find_mappings, List.mem_filter] at hmp
  obtain ⟨hmem, hcond⟩ := hmp
  simp only [Bool.and_eq_true, decide_eq_true_eq] at hcond
  obtain ⟨⟨hip, _⟩, _⟩ := hcond
  simp only [allFactorizations, List.mem_flatMap, List.mem_map] at hmem
  obtain ⟨fb, hfb, fc, hfc, fe, hfe, fpx, hfpx, fpy, hfpy, frx, hfrx, fry,
    hfry, rfl⟩ := hmem
  exact ⟨factorTriples_prod hfb, factorTriples_prod hfc,
    factorTriples_prod hfe, factorTriples_prod hfpx,
    factorTriples_prod hfpy, factorTriples_prod hfrx,
    factorTriples_prod hfry, hip⟩

/-- The all-ones workload. -/
def wOnes : Workload := ⟨1, 1, 1, 1, 1, 1, 1⟩

/-- A minimal MLB spec: one MAC unit, no access-pattern weights, no
native projection bound. -/
def hwTriv : HwbSpec := ⟨1, [], none⟩

/-- The all-ones mapping. -/
def mpOnes : CMapping :=
  ⟨⟨1, 1, 1⟩, ⟨1, 1, 1⟩, ⟨1, 1, 1⟩, ⟨1, 1, 1⟩, ⟨1, 1, 1⟩, ⟨1, 1, 1⟩,
    ⟨1, 1, 1⟩⟩

/-- Witness for C9: the all-ones mapping is returned for the all-ones
workload with a one-MAC budget, and satisfies the invariants. -/
theorem find_mappings_factorization_witness :
    mpOnes.b.o * mpOnes.b.i * mpOnes.b.t = wOnes.b ∧
    mpOnes.c.o * mpOnes.c.i * mpOnes.c.t = wOnes.c ∧
    mpOnes.e.o * mpOnes.e.i * mpOnes.e.t = wOnes.e ∧
    mpOnes.px.o * mpOnes.px.i * mpOnes.px.t = wOnes.px ∧
    mpOnes.py.o * mpOnes.py.i * mpOnes.py.t = wOnes.py ∧
    mpOnes.rx.o * mpOnes.rx.i * mpOnes.rx.t = wOnes.rx ∧
    mpOnes.ry.o * mpOnes.ry.i * mpOnes.ry.t = wOnes.ry ∧
    inner_product mpOnes ≤ 1 :=
  find_mappings_factorization hwTriv wOnes 1 false mpOnes (by decide)
